import Mathlib

/-!
Verification development for the network2tikz attribute-normalization and
layout pipeline (src/network2tikz/drawing.py and src/network2tikz/layout.py).

Python dictionaries are modelled as association lists with insertion-order
semantics: an insert of an existing key updates the value in place, an insert
of a fresh key appends at the end.  Python None is modelled by Option.none,
Python exceptions by Except.  Numeric values of the geometry code are
modelled over the real numbers.
-/

namespace Network2Tikz

/-! ## Python dictionary model -/

/-- Lookup of a key in an association list (Python dict.get semantics). -/
def pyLookup {κ α : Type} [DecidableEq κ] : List (κ × α) → κ → Option α
  | [], _ => none
  | (k', v') :: rest, k => if k' = k then some v' else pyLookup rest k

/-- Python dict assignment d[k] = v: update in place if the key exists,
append at the end otherwise (insertion order is preserved). -/
def dinsert {κ α : Type} [DecidableEq κ] : List (κ × α) → κ → α → List (κ × α)
  | [], k, v => [(k, v)]
  | (k', v') :: rest, k, v =>
      if k' = k then (k', v) :: rest else (k', v') :: dinsert rest k v

/-- The keys of a modelled dict, in insertion order. -/
def dkeys {κ α : Type} (d : List (κ × α)) : List κ := d.map Prod.fst

/-- Python dict merge as in the expression with double-star unpacking of a
then b: entries of b are inserted into a one by one, so on a key collision
the position comes from a and the value from b. -/
def dmerge {κ α : Type} [DecidableEq κ] (a b : List (κ × α)) : List (κ × α) :=
  b.foldl (fun d kv => dinsert d kv.1 kv.2) a

section DictLemmas

variable {κ α : Type} [DecidableEq κ]

theorem pyLookup_dinsert_self (d : List (κ × α)) (k : κ) (v : α) :
    pyLookup (dinsert d k v) k = some v := by
  induction d with
  | nil => simp [dinsert, pyLookup]
  | cons kv rest ih =>
      obtain ⟨k', v'⟩ := kv
      by_cases h : k' = k
      · simp [dinsert, pyLookup, h]
      · simp [dinsert, pyLookup, h, ih]

theorem pyLookup_dinsert_ne (d : List (κ × α)) (k q : κ) (v : α) (h : q ≠ k) :
    pyLookup (dinsert d k v) q = pyLookup d q := by
  have hkq : ¬k = q := fun hh => h hh.symm
  induction d with
  | nil =>
      simp only [dinsert, pyLookup]
      rw [if_neg hkq]
  | cons kv rest ih =>
      obtain ⟨k', v'⟩ := kv
      by_cases hk : k' = k
      · subst hk
        simp only [dinsert, if_pos rfl, pyLookup]
        rw [if_neg (show ¬k' = q from fun hh => h hh.symm),
          if_neg (show ¬k' = q from fun hh => h hh.symm)]
      · simp only [dinsert, if_neg hk, pyLookup]
        by_cases hq : k' = q
        · rw [if_pos hq, if_pos hq]
        · rw [if_neg hq, if_neg hq]
          exact ih

theorem pyLookup_eq_none_iff (d : List (κ × α)) (q : κ) :
    pyLookup d q = none ↔ q ∉ dkeys d := by
  induction d with
  | nil => simp [pyLookup, dkeys]
  | cons kv rest ih =>
      obtain ⟨k', v'⟩ := kv
      by_cases h : k' = q
      · simp [pyLookup, dkeys, h]
      · simp [pyLookup, dkeys, h, ih, Ne.symm h]

/-- Inserting a pair whose key is absent appends it at the end. -/
theorem dinsert_of_not_mem (d : List (κ × α)) (k : κ) (v : α)
    (h : k ∉ dkeys d) : dinsert d k v = d ++ [(k, v)] := by
  induction d with
  | nil => simp [dinsert]
  | cons kv rest ih =>
      obtain ⟨k', v'⟩ := kv
      simp only [dkeys, List.map_cons, List.mem_cons] at h
      push_neg at h
      simp [dinsert, Ne.symm h.1, ih (by simpa [dkeys] using h.2)]

/-- Folding inserts of pairs with pairwise distinct keys, none of which occurs
in the start dict, appends the pairs in order. -/
theorem foldl_dinsert_nodup (kvs : List (κ × α)) (d₀ : List (κ × α))
    (hn : (kvs.map Prod.fst).Nodup) (hd : ∀ kv ∈ kvs, kv.1 ∉ dkeys d₀) :
    kvs.foldl (fun d kv => dinsert d kv.1 kv.2) d₀ = d₀ ++ kvs := by
  induction kvs generalizing d₀ with
  | nil => simp
  | cons kv rest ih =>
      obtain ⟨k, v⟩ := kv
      simp only [List.map_cons, List.nodup_cons] at hn
      have hk : k ∉ dkeys d₀ := hd (k, v) (List.mem_cons_self _ _)
      have step : dinsert d₀ k v = d₀ ++ [(k, v)] := dinsert_of_not_mem d₀ k v hk
      simp only [List.foldl_cons, step]
      rw [ih (d₀ ++ [(k, v)]) hn.2]
      · simp
      · intro kv' hkv'
        have h1 : kv'.1 ∉ dkeys d₀ := hd kv' (List.mem_cons_of_mem _ hkv')
        have h2 : kv'.1 ≠ k := by
          intro hh
          exact hn.1 (hh ▸ List.mem_map_of_mem Prod.fst hkv')
        simp only [dkeys, List.map_append, List.map_cons, List.map_nil,
          List.mem_append, List.mem_singleton]
        rintro (hc | hc)
        · exact h1 hc
        · exact h2 hc

/-- A fold of inserts whose values depend only on the key: final lookup. -/
theorem pyLookup_foldl_keyfun (ks : List κ) (f : κ → α) (d₀ : List (κ × α))
    (q : κ) :
    pyLookup (ks.foldl (fun d n => dinsert d n (f n)) d₀) q =
      if q ∈ ks then some (f q) else pyLookup d₀ q := by
  induction ks generalizing d₀ with
  | nil => simp
  | cons n rest ih =>
      simp only [List.foldl_cons]
      rw [ih]
      by_cases hq : q ∈ rest
      · simp [hq]
      · by_cases hn : q = n
        · subst hn
          simp [hq, pyLookup_dinsert_self]
        · simp [hq, hn, pyLookup_dinsert_ne _ _ _ _ hn]

/-- A fold of inserts none of whose keys equals q leaves the lookup of q
unchanged. -/
theorem pyLookup_foldl_not_mem {β : Type} (ps : List β) (key : β → κ)
    (val : β → α) (d₀ : List (κ × α)) (q : κ) (h : ∀ p ∈ ps, key p ≠ q) :
    pyLookup (ps.foldl (fun d p => dinsert d (key p) (val p)) d₀) q =
      pyLookup d₀ q := by
  induction ps generalizing d₀ with
  | nil => simp
  | cons p rest ih =>
      simp only [List.foldl_cons]
      rw [ih _ (fun p' hp' => h p' (List.mem_cons_of_mem _ hp'))]
      exact pyLookup_dinsert_ne _ _ _ _ (fun hh => h p (List.mem_cons_self _ _) hh.symm)

/-- If every insert of a fold uses the same value v and q is among the
inserted keys, the final lookup of q yields v. -/
theorem pyLookup_foldl_const_of_mem (ks : List κ) (v : α) (d₀ : List (κ × α))
    (q : κ) (h : q ∈ ks) :
    pyLookup (ks.foldl (fun d n => dinsert d n v) d₀) q = some v := by
  have := pyLookup_foldl_keyfun ks (fun _ => v) d₀ q
  simp only [h, if_true] at this
  exact this

theorem pyLookup_dmerge_of_none (a b : List (κ × α)) (q : κ)
    (ha : pyLookup a q = none) (hb : ∀ kv ∈ b, kv.1 ≠ q) :
    pyLookup (dmerge a b) q = none := by
  unfold dmerge
  rw [pyLookup_foldl_not_mem b Prod.fst Prod.snd a q hb]
  exact ha

end DictLemmas

/-! ## Attribute value resolution (drawing.py, format_node_value and
format_edge_value, lines 379-428)

Python scalars recognised by the isinstance dispatch: str, int, float,
bool and tuple.  In format_node_value there is no explicit bool branch, but
Python bool is a subclass of int, so booleans take the same broadcast path;
format_edge_value lists bool explicitly.  Tuples (RGB triples) are modelled
as tuples of rationals. -/

inductive PyScalar where
  | str (s : String)
  | int (n : ℤ)
  | float (q : ℚ)
  | bool (b : Bool)
  | tuple (l : List ℚ)
deriving DecidableEq, Repr

/-- The shapes a style value can take, mirroring the isinstance dispatch:
a scalar (broadcast), a positional list, a keyed dict, or anything else
(which raises CnetError). -/
inductive AttrValue (ι : Type) where
  | scalar (v : PyScalar)
  | plist (l : List PyScalar)
  | pdict (d : List (ι × PyScalar))
  | other
deriving DecidableEq

/-- CnetError raised by the formatting helpers on an unsupported shape. -/
inductive CnetErr where
  | cnetError
deriving DecidableEq, Repr

/-- drawing.py lines 379-402: returns a dict with node ids and assigned
values.  Scalars broadcast to every node; lists assign positionally with an
IndexError-to-None fallback past the end; dicts look each node up with a
KeyError-to-None fallback; any other shape raises CnetError. -/
def format_node_value {ι : Type} [DecidableEq ι] (nodes : List ι) :
    AttrValue ι → Except CnetErr (List (ι × Option PyScalar))
  | .scalar v => .ok (nodes.foldl (fun d n => dinsert d n (some v)) [])
  | .plist l => .ok (nodes.enum.foldl (fun d p => dinsert d p.2 (l.get? p.1)) [])
  | .pdict dv => .ok (nodes.foldl (fun d n => dinsert d n (pyLookup dv n)) [])
  | .other => .error .cnetError

/-- drawing.py lines 404-428: identical to format_node_value but iterating
over the edge-id space (the keys of the edges OrderedDict). -/
def format_edge_value {ε : Type} [DecidableEq ε] (edges : List ε) :
    AttrValue ε → Except CnetErr (List (ε × Option PyScalar))
  | .scalar v => .ok (edges.foldl (fun d n => dinsert d n (some v)) [])
  | .plist l => .ok (edges.enum.foldl (fun d p => dinsert d p.2 (l.get? p.1)) [])
  | .pdict dv => .ok (edges.foldl (fun d n => dinsert d n (pyLookup dv n)) [])
  | .other => .error .cnetError

section FormatLemmas

variable {κ : Type} [DecidableEq κ]

/-- Broadcast fold of a single scalar value: lookup characterization. -/
theorem scalar_fold_lookup (ks : List κ) (v : PyScalar) (q : κ) :
    pyLookup (ks.foldl (fun d n => dinsert d n (some v))
        ([] : List (κ × Option PyScalar))) q =
      if q ∈ ks then some (some v) else none := by
  rw [pyLookup_foldl_keyfun ks (fun _ => some v) [] q]
  rfl

/-- Broadcast fold of a single scalar value: the key set is the entity set. -/
theorem scalar_fold_keys (ks : List κ) (v : PyScalar) (q : κ) :
    q ∈ dkeys (ks.foldl (fun d n => dinsert d n (some v))
        ([] : List (κ × Option PyScalar))) ↔ q ∈ ks := by
  constructor
  · intro hk
    by_cases hq : q ∈ ks
    · exact hq
    · exfalso
      have hnone : pyLookup (ks.foldl (fun d n => dinsert d n (some v)) []) q = none := by
        rw [scalar_fold_lookup]
        simp [hq]
      exact (pyLookup_eq_none_iff _ q).1 hnone hk
  · intro hq
    by_contra hk
    have := (pyLookup_eq_none_iff
      (ks.foldl (fun d n => dinsert d n (some v)) []) q).2 hk
    rw [scalar_fold_lookup] at this
    simp [hq] at this

/-- Positional fold over an enumeration: each entity at position i receives
the list element at index s + i when present, and None past the end. -/
theorem plist_fold_lookup (ks : List κ) (l : List PyScalar) (hk : ks.Nodup)
    (s : ℕ) (d₀ : List (κ × Option PyScalar)) (i : ℕ) (hi : i < ks.length) :
    pyLookup ((ks.enumFrom s).foldl (fun d p => dinsert d p.2 (l.get? p.1)) d₀)
        (ks.get ⟨i, hi⟩) = some (l.get? (s + i)) := by
  induction ks generalizing s d₀ i with
  | nil => exact absurd hi (by simp)
  | cons n rest ih =>
      rcases List.nodup_cons.1 hk with ⟨hn, hrest⟩
      cases i with
      | zero =>
          simp only [List.enumFrom, List.foldl_cons, List.get]
          rw [pyLookup_foldl_not_mem (rest.enumFrom (s + 1)) Prod.snd
            (fun p => l.get? p.1) _ n ?_]
          · rw [pyLookup_dinsert_self, Nat.add_zero]
          · intro p hp hpn
            apply hn
            have : p.2 ∈ (rest.enumFrom (s + 1)).map Prod.snd :=
              List.mem_map_of_mem Prod.snd hp
            rw [List.enumFrom_map_snd] at this
            exact hpn ▸ this
      | succ j =>
          simp only [List.enumFrom, List.foldl_cons, List.get]
          have harith : s + (j + 1) = (s + 1) + j := by omega
          rw [harith]
          exact ih hrest (s + 1) _ j (by simpa using Nat.lt_of_succ_lt_succ hi)

end FormatLemmas

/-- C1: for every network and every scalar style value, format_node_value on
the node set and format_edge_value on the edge set return (without raising) a
mapping whose key set is exactly the entity set, every entity mapped to that
exact value. -/
theorem claim1_scalar_broadcast {ι ε : Type} [DecidableEq ι] [DecidableEq ε]
    (nodes : List ι) (edges : List ε) (v : PyScalar) (n : ι) (e : ε)
    (hn : n ∈ nodes) (he : e ∈ edges) :
    (∃ m, format_node_value nodes (.scalar v) = .ok m ∧
      (∀ q, q ∈ dkeys m ↔ q ∈ nodes) ∧ pyLookup m n = some (some v)) ∧
    (∃ m, format_edge_value edges (.scalar v) = .ok m ∧
      (∀ q, q ∈ dkeys m ↔ q ∈ edges) ∧ pyLookup m e = some (some v)) := by
  constructor
  · refine ⟨_, rfl, fun q => scalar_fold_keys nodes v q, ?_⟩
    rw [scalar_fold_lookup]
    simp [hn]
  · refine ⟨_, rfl, fun q => scalar_fold_keys edges v q, ?_⟩
    rw [scalar_fold_lookup]
    simp [he]

/-- Witness for C1 at a concrete network. -/
theorem claim1_scalar_broadcast_witness :
    (∃ m, format_node_value [0, 1] (AttrValue.scalar (ι := ℕ) (.int 7)) = .ok m ∧
      (∀ q, q ∈ dkeys m ↔ q ∈ [0, 1]) ∧ pyLookup m 0 = some (some (.int 7))) ∧
    (∃ m, format_edge_value [5] (AttrValue.scalar (ι := ℕ) (.int 7)) = .ok m ∧
      (∀ q, q ∈ dkeys m ↔ q ∈ [5]) ∧ pyLookup m 5 = some (some (.int 7))) :=
  claim1_scalar_broadcast [0, 1] [5] (.int 7) 0 5 (by decide) (by decide)

/-- C2: a positional-list style value shorter than the entity count resolves
without raising; entities at covered positions receive the element at their
position (entity iteration order) and entities past the end receive None. -/
theorem claim2_short_list_fallback {ι ε : Type} [DecidableEq ι] [DecidableEq ε]
    (nodes : List ι) (edges : List ε) (l : List PyScalar)
    (hn : nodes.Nodup) (he : edges.Nodup)
    (h1 : l.length < nodes.length) (h2 : l.length < edges.length) :
    (∃ m, format_node_value nodes (.plist l) = .ok m ∧
      ∀ i (hi : i < nodes.length),
        (∀ hl : i < l.length,
          pyLookup m (nodes.get ⟨i, hi⟩) = some (some (l.get ⟨i, hl⟩))) ∧
        (l.length ≤ i → pyLookup m (nodes.get ⟨i, hi⟩) = some none)) ∧
    (∃ m, format_edge_value edges (.plist l) = .ok m ∧
      ∀ i (hi : i < edges.length),
        (∀ hl : i < l.length,
          pyLookup m (edges.get ⟨i, hi⟩) = some (some (l.get ⟨i, hl⟩))) ∧
        (l.length ≤ i → pyLookup m (edges.get ⟨i, hi⟩) = some none)) := by
  constructor
  · refine ⟨_, rfl, fun i hi => ?_⟩
    have base := plist_fold_lookup nodes l hn 0 [] i hi
    rw [Nat.zero_add] at base
    constructor
    · intro hl
      rw [show nodes.enum = nodes.enumFrom 0 from rfl, base,
        List.get?_eq_get hl]
    · intro hl
      rw [show nodes.enum = nodes.enumFrom 0 from rfl, base,
        List.get?_eq_none.2 hl]
  · refine ⟨_, rfl, fun i hi => ?_⟩
    have base := plist_fold_lookup edges l he 0 [] i hi
    rw [Nat.zero_add] at base
    constructor
    · intro hl
      rw [show edges.enum = edges.enumFrom 0 from rfl, base,
        List.get?_eq_get hl]
    · intro hl
      rw [show edges.enum = edges.enumFrom 0 from rfl, base,
        List.get?_eq_none.2 hl]

/-- Witness for C2: three nodes, two edges, a one-element list. -/
theorem claim2_short_list_fallback_witness :
    ∃ m, format_node_value [10, 11, 12] (AttrValue.plist (ι := ℕ) [.int 5]) = .ok m ∧
      ∀ i (hi : i < [10, 11, 12].length),
        (∀ hl : i < [PyScalar.int 5].length,
          pyLookup m ([10, 11, 12].get ⟨i, hi⟩) =
            some (some ([PyScalar.int 5].get ⟨i, hl⟩))) ∧
        ([PyScalar.int 5].length ≤ i →
          pyLookup m ([10, 11, 12].get ⟨i, hi⟩) = some none) :=
  (claim2_short_list_fallback [10, 11, 12] [7, 8] [.int 5]
    (by decide) (by decide) (by decide) (by decide)).1

/-! ## Network ingestion (drawing.py, TikzNetworkDrawer.__init__,
lines 102-156)

self.edges is an OrderedDict filled branch by branch depending on the type
of the input network; drawing.py lines 278-284 then produce one output edge
record per entry of that dict.  The key written per iteration differs by
branch:

* cnet: for e, n in network.edges(nodes=True): self.edges[e] = n
  (key = the edge identifier, value = the endpoint pair);
* networkx: for e in network.edges(): self.edges[e] = e
  (key = the iterated edge element, which is the (u, v) tuple itself);
* igraph: for i in range(len(network.es)): self.edges[i] = network.es[i].tuple
  (key = the integer edge index);
* pathpy: for e in network.edges: self.edges[e] = e (same shape as networkx);
* tuple input: for e in network[1]: self.edges[e] = e
  (key = the edge element of the user-supplied edge list). -/

/-- cnet branch: edges dict keyed by the cnet edge identifier. -/
def ingest_cnet {ε ι : Type} [DecidableEq ε] (es : List (ε × ι × ι)) :
    List (ε × ι × ι) :=
  es.foldl (fun d e => dinsert d e.1 e.2) []

/-- networkx branch: edges dict keyed by the iterated (u, v) tuple itself. -/
def ingest_networkx {ι : Type} [DecidableEq ι] (es : List (ι × ι)) :
    List ((ι × ι) × ι × ι) :=
  es.foldl (fun d e => dinsert d e e) []

/-- igraph branch: edges dict keyed by the integer edge index. -/
def ingest_igraph {ι : Type} (es : List (ι × ι)) : List (ℕ × ι × ι) :=
  es.enum.foldl (fun d p => dinsert d p.1 p.2) []

/-- node/edge-list (tuple) branch: edges dict keyed by the edge element of
the supplied edge list, exactly as in the networkx branch. -/
def ingest_tuple_input {ι : Type} [DecidableEq ι] (es : List (ι × ι)) :
    List ((ι × ι) × ι × ι) :=
  es.foldl (fun d e => dinsert d e e) []

/-- Counterexample to C3: in the node/edge-list representation the dict key
is the endpoint pair itself, so two parallel edges carrying the same pair
merge into a single output edge record. -/
theorem claim3_counterexample :
    ingest_tuple_input [((1 : ℕ), (2 : ℕ)), (1, 2)] = [((1, 2), 1, 2)] ∧
    (ingest_tuple_input [((1 : ℕ), (2 : ℕ)), (1, 2)]).length ≠ 2 := by
  constructor
  · rfl
  · decide

/-- C3 amended: identifier-bearing representations do preserve self-loops and
parallel edges distinctly.  For the cnet branch, pairwise distinct edge
identifiers yield one entry per input edge in order, whatever the endpoint
pairs (self-loops and parallel pairs included); the igraph branch is keyed by
the integer index and preserves every edge unconditionally. -/
theorem claim3_amended_keyed_by_id {ε ι : Type} [DecidableEq ε]
    (es : List (ε × ι × ι)) (es₂ : List (ι × ι))
    (hids : (es.map Prod.fst).Nodup) :
    ingest_cnet es = es ∧ ingest_igraph es₂ = es₂.enum := by
  constructor
  · unfold ingest_cnet
    rw [foldl_dinsert_nodup es [] hids (by intro kv _; simp [dkeys])]
    simp
  · unfold ingest_igraph
    rw [foldl_dinsert_nodup es₂.enum []
      (by
        have : (es₂.enum.map Prod.fst) = List.range es₂.length := by
          simp [List.enum_map_fst]
        rw [this]
        exact List.nodup_range _)
      (by intro kv _; simp [dkeys])]
    simp

/-- Witness for C3 amended: a self-loop and two parallel edges under distinct
cnet identifiers all survive as distinct entries; same for igraph indices. -/
theorem claim3_amended_keyed_by_id_witness :
    ingest_cnet [((10 : ℕ), (1 : ℕ), (1 : ℕ)), (11, 1, 2), (12, 1, 2)] =
      [(10, 1, 1), (11, 1, 2), (12, 1, 2)] ∧
    ingest_igraph [((1 : ℕ), (1 : ℕ)), (2, 3), (2, 3)] =
      [((1 : ℕ), (1 : ℕ)), (2, 3), (2, 3)].enum :=
  claim3_amended_keyed_by_id [(10, 1, 1), (11, 1, 2), (12, 1, 2)]
    [(1, 1), (2, 3), (2, 3)] (by decide)

/-! ## Key aliasing (drawing.py, TikzNetworkDrawer.rename_attributes,
lines 183-202)

The Python code tests, for every style key and every synonym token,
whether the token occurs as a substring of the key (the Python in operator)
and whether the first characters agree, and if so stores the value under
key.replace(token, canonical), which substitutes every occurrence of the
token.  Strings are handled through their character lists. -/

/-- The Python in operator on strings: n occurs as a contiguous substring. -/
def pyIn (n : List Char) : List Char → Bool
  | [] => n.isEmpty
  | c :: t => n.isPrefixOf (c :: t) || pyIn n t

/-- Fuelled worker for Python str.replace: scan left to right, substitute a
for every non-overlapping occurrence of t.  The fuel is the length of the
scanned list, which bounds the recursion depth. -/
def repAllAux (t a : List Char) : ℕ → List Char → List Char
  | 0, k => k
  | _ + 1, [] => []
  | fuel + 1, c :: rest =>
      if t.isPrefixOf (c :: rest) && !t.isEmpty then
        a ++ repAllAux t a fuel ((c :: rest).drop t.length)
      else
        c :: repAllAux t a fuel rest

/-- Python str.replace on character lists (for a nonempty pattern, which is
the only case the alias table exercises). -/
def repAll (t a k : List Char) : List Char := repAllAux t a k.length k

/-- Python key.replace(old, new) on strings. -/
def pyReplace (key old new : String) : String :=
  String.mk (repAll old.data new.data key.data)

/-- The per-token test of rename_attributes:
name in key and name[0] == key[0].  (The table tokens are all nonempty, so
the Python index expression name[0] cannot fail, and key[0] is only reached
when the substring test has already succeeded on a nonempty key.) -/
def pyMatch (key name : String) : Bool :=
  pyIn name.data key.data && (name.data.head? == key.data.head?)

/-- The alias table of rename_attributes (drawing.py lines 183-188). -/
def namesTable : List (String × List String) :=
  [("node_", ["vertex_", "v_", "n_"]),
   ("edge_", ["edge_", "link_", "l_", "e_"]),
   ("margins", ["margin"]),
   ("canvas", ["bbox", "figure_size"]),
   ("units", ["units", "unit"])]

/-- The inner loop of rename_attributes for one table group: the first token
of the group matching the key produces the rewritten key, and the inner loop
breaks; the outer loop over groups continues. -/
def groupRewrite (key attr : String) (toks : List String) : Option String :=
  (toks.find? (fun t => pyMatch key t)).map (fun t => pyReplace key t attr)

/-- All rewritten forms a key receives, one per matching table group, in
table order (the Python break leaves the outer loop running). -/
def rewrites (key : String) : List String :=
  namesTable.filterMap (fun g => groupRewrite key g.1 g.2)

/-- drawing.py lines 183-202: rename_attributes.  Matched keys are written
(rewritten) into the fresh dict, recorded in del_keys and deleted from the
input dict (modelled as a filter; for this table no key matches two groups,
so each matched key is recorded and deleted exactly once), and the final
result is the merge with the surviving entries, the survivors winning on a
key collision. -/
def rename_attributes {α : Type} (kwds : List (String × α)) :
    List (String × α) :=
  let kwdsNew := kwds.foldl
    (fun acc kv => (rewrites kv.1).foldl (fun a rk => dinsert a rk kv.2) acc) []
  let remaining := kwds.filter (fun kv => (rewrites kv.1).isEmpty)
  dmerge kwdsNew remaining

section RenameLemmas

/-- Keys never produced by any rewrite are not touched by the rewriting
fold. -/
theorem pyLookup_rename_fold {α : Type} (kwds : List (String × α))
    (acc : List (String × α)) (q : String)
    (h : ∀ kv ∈ kwds, q ∉ rewrites kv.1) :
    pyLookup (kwds.foldl
      (fun acc kv => (rewrites kv.1).foldl (fun a rk => dinsert a rk kv.2) acc)
      acc) q = pyLookup acc q := by
  induction kwds generalizing acc with
  | nil => rfl
  | cons kv rest ih =>
      simp only [List.foldl_cons]
      rw [ih _ (fun kv' hkv' => h kv' (List.mem_cons_of_mem _ hkv'))]
      exact pyLookup_foldl_not_mem (rewrites kv.1) id (fun _ => kv.2) acc q
        (fun rk hrk hq => h kv (List.mem_cons_self _ _) (hq ▸ hrk))

theorem pyIn_append_self (a x : List Char) : pyIn a (a ++ x) = true := by
  cases a with
  | nil => cases x <;> simp [pyIn, List.isPrefixOf]
  | cons c t =>
      simp only [List.cons_append, pyIn, Bool.or_eq_true]
      left
      exact List.isPrefixOf_iff_prefix.2 ⟨x, by simp⟩

theorem pyIn_cons_of (n : List Char) (c : Char) (k : List Char)
    (h : pyIn n k = true) : pyIn n (c :: k) = true := by
  simp only [pyIn, Bool.or_eq_true]
  exact Or.inr h

/-- The substring relation bounds the length. -/
theorem pyIn_length_le (n : List Char) : ∀ k, pyIn n k = true →
    n.length ≤ k.length := by
  intro k
  induction k with
  | nil =>
      intro h
      simp only [pyIn, List.isEmpty_iff] at h
      simp [h]
  | cons c rest ih =>
      intro h
      simp only [pyIn, Bool.or_eq_true] at h
      rcases h with h | h
      · exact (List.isPrefixOf_iff_prefix.1 h).length_le
      · exact le_trans (ih h) (Nat.le_succ _)

/-- A substring of equal length is the whole string. -/
theorem pyIn_eq_of_length (n : List Char) : ∀ k, pyIn n k = true →
    n.length = k.length → n = k := by
  intro k
  induction k with
  | nil =>
      intro h _
      simpa [pyIn, List.isEmpty_iff] using h
  | cons c rest ih =>
      intro h hlen
      simp only [pyIn, Bool.or_eq_true] at h
      rcases h with h | h
      · exact (List.isPrefixOf_iff_prefix.1 h).eq_of_length hlen
      · have hle := pyIn_length_le n rest h
        rw [List.length_cons] at hlen
        omega

/-- str.replace leaves a string without any occurrence of the pattern
unchanged. -/
theorem repAllAux_not_in (t a : List Char) : ∀ fuel k, k.length ≤ fuel →
    pyIn t k = false → repAllAux t a fuel k = k := by
  intro fuel
  induction fuel with
  | zero => intro k _ _; rfl
  | succ m ih =>
      intro k hk h
      cases k with
      | nil => rfl
      | cons c rest =>
          simp only [pyIn, Bool.or_eq_false_iff] at h
          have hlen : rest.length ≤ m := by
            simp only [List.length_cons] at hk
            omega
          simp only [repAllAux]
          rw [if_neg (by simp [h.1]), ih rest hlen h.2]

/-- After a replacement on a string containing the pattern, the substitute
occurs in the result. -/
theorem repAllAux_contains (t a : List Char) (ht : t ≠ []) :
    ∀ fuel k, k.length ≤ fuel → pyIn t k = true →
    pyIn a (repAllAux t a fuel k) = true := by
  intro fuel
  induction fuel with
  | zero =>
      intro k hk h
      have hnil : k = [] := List.eq_nil_of_length_eq_zero (Nat.le_zero.1 hk)
      subst hnil
      simp only [pyIn, List.isEmpty_iff] at h
      exact absurd h ht
  | succ m ih =>
      intro k hk h
      cases k with
      | nil =>
          simp only [pyIn, List.isEmpty_iff] at h
          exact absurd h ht
      | cons c rest =>
          have hlen : rest.length ≤ m := by
            simp only [List.length_cons] at hk
            omega
          by_cases hp : t.isPrefixOf (c :: rest) = true
          · have hcond : (t.isPrefixOf (c :: rest) && !t.isEmpty) = true := by
              cases t with
              | nil => exact absurd rfl ht
              | cons x xs => simp [hp]
            simp only [repAllAux]
            rw [if_pos hcond]
            exact pyIn_append_self a _
          · simp only [pyIn, Bool.or_eq_true] at h
            rcases h with h | h
            · exact absurd h hp
            · simp only [repAllAux]
              rw [if_neg (by simp [hp])]
              exact pyIn_cons_of a c _ (ih rest hlen h)

/-- A replacement by a substitute at least as long as the pattern never
shortens the string. -/
theorem repAllAux_length_ge (t a : List Char) (hat : t.length ≤ a.length) :
    ∀ fuel k, k.length ≤ fuel → k.length ≤ (repAllAux t a fuel k).length := by
  intro fuel
  induction fuel with
  | zero => intro k _; simp [repAllAux]
  | succ m ih =>
      intro k hk
      cases k with
      | nil => simp [repAllAux]
      | cons c rest =>
          have hlen : rest.length ≤ m := by
            simp only [List.length_cons] at hk
            omega
          by_cases hcond : (t.isPrefixOf (c :: rest) && !t.isEmpty) = true
          · obtain ⟨hp, hne⟩ : t.isPrefixOf (c :: rest) = true ∧ (!t.isEmpty) = true := by
              simpa [Bool.and_eq_true] using hcond
            have htlen : t.length ≤ (c :: rest).length :=
              (List.isPrefixOf_iff_prefix.1 hp).length_le
            have htpos : 0 < t.length := by
              cases t with
              | nil => simp at hne
              | cons _ _ => simp
            have hdrop : ((c :: rest).drop t.length).length ≤ m := by
              simp only [List.length_drop]
              have hk' : (c :: rest).length ≤ m + 1 := hk
              omega
            have hrec := ih ((c :: rest).drop t.length) hdrop
            simp only [List.length_drop] at hrec
            simp only [repAllAux]
            rw [if_pos hcond]
            simp only [List.length_append]
            omega
          · have hrec := ih rest hlen
            simp only [repAllAux]
            rw [if_neg hcond]
            simp only [List.length_cons]
            omega

/-- A replacement by a strictly longer substitute on a string containing the
pattern strictly lengthens the string. -/
theorem repAllAux_length_gt (t a : List Char) (ht : t ≠ [])
    (hat : t.length < a.length) :
    ∀ fuel k, k.length ≤ fuel → pyIn t k = true →
    k.length + 1 ≤ (repAllAux t a fuel k).length := by
  intro fuel
  induction fuel with
  | zero =>
      intro k hk h
      have h1 := pyIn_length_le t k h
      have htpos : 0 < t.length := List.length_pos.2 ht
      omega
  | succ m ih =>
      intro k hk h
      cases k with
      | nil =>
          simp only [pyIn, List.isEmpty_iff] at h
          exact absurd h ht
      | cons c rest =>
          have hlen : rest.length ≤ m := by
            simp only [List.length_cons] at hk
            omega
          by_cases hp : t.isPrefixOf (c :: rest) = true
          · have hcond : (t.isPrefixOf (c :: rest) && !t.isEmpty) = true := by
              cases t with
              | nil => exact absurd rfl ht
              | cons x xs => simp [hp]
            have htlen : t.length ≤ (c :: rest).length :=
              (List.isPrefixOf_iff_prefix.1 hp).length_le
            have htpos : 0 < t.length := List.length_pos.2 ht
            have hdrop : ((c :: rest).drop t.length).length ≤ m := by
              simp only [List.length_drop]
              have hk' : (c :: rest).length ≤ m + 1 := hk
              omega
            have hrec := repAllAux_length_ge t a (le_of_lt hat) m _ hdrop
            simp only [List.length_drop] at hrec
            simp only [repAllAux]
            rw [if_pos hcond]
            simp only [List.length_append]
            omega
          · simp only [pyIn, Bool.or_eq_true] at h
            rcases h with h | h
            · exact absurd h hp
            · have hrec := ih rest hlen h
              simp only [repAllAux]
              rw [if_neg (by simp [hp])]
              simp only [List.length_cons]
              omega

/-- Inversion of the margins-group rewrite: the only key whose margin-token
replacement produces the exact string margins is the bare alias margin. -/
theorem repAll_margin_inversion (k : List Char)
    (h : pyIn ("margin".data) k = true)
    (heq : repAll ("margin".data) ("margins".data) k = "margins".data) :
    k = "margin".data := by
  have hlen1 : k.length + 1 ≤ (repAll ("margin".data) ("margins".data) k).length :=
    repAllAux_length_gt _ _ (by decide) (by decide) k.length k le_rfl h
  rw [heq] at hlen1
  have hlen2 : ("margin".data).length ≤ k.length := pyIn_length_le _ k h
  have : ("margin".data).length = k.length := by
    have h7 : ("margins".data).length = 7 := by decide
    have h6 : ("margin".data).length = 6 := by decide
    omega
  exact (pyIn_eq_of_length _ k h this).symm

end RenameLemmas

/-- C8 counterexample: in the key label_size the synonym token l_ occurs but
not as a prefix, yet rename_attributes rewrites the key (to labeedge_size)
instead of returning it unchanged, because the Python test is substring
containment plus equality of the first characters, and the replacement
touches every occurrence. -/
theorem claim8_counterexample :
    pyIn ("l_".data) ("label_size".data) = true ∧
    ("l_".data).isPrefixOf ("label_size".data) = false ∧
    rename_attributes [("label_size", (5 : ℕ))] = [("labeedge_size", 5)] ∧
    pyLookup (rename_attributes [("label_size", (5 : ℕ))]) "label_size" = none :=
  ⟨by decide, by decide, by decide, by decide⟩

/-- C8 amended: a style keyword is rewritten exactly when some synonym token
occurs anywhere in it with the token's first character equal to the keyword's
first character; the rewrite replaces every occurrence of the matched token;
keywords matching no token pass through unchanged. -/
theorem claim8_amended {α : Type} (k : String) (v : α) :
    (rewrites k = [] → rename_attributes [(k, v)] = [(k, v)]) ∧
    (∀ attr toks r, (attr, toks) ∈ namesTable →
      groupRewrite k attr toks = some r →
      pyLookup (rename_attributes [(k, v)]) r = some v) := by
  constructor
  · intro h
    simp [rename_attributes, h, dmerge, dinsert]
  · intro attr toks r hg hgr
    have hr : r ∈ rewrites k := List.mem_filterMap.2 ⟨(attr, toks), hg, hgr⟩
    have hne : rewrites k ≠ [] := List.ne_nil_of_mem hr
    have hrem : List.filter (fun kv => (rewrites kv.1).isEmpty)
        [(k, v)] = [] := by
      simp only [List.filter]
      cases hcase : rewrites k with
      | nil => exact absurd hcase hne
      | cons x xs => simp [hcase]
    have hres : rename_attributes [(k, v)] =
        (rewrites k).foldl (fun a rk => dinsert a rk v) [] := by
      simp only [rename_attributes, List.foldl_cons, List.foldl_nil, hrem]
      rfl
    rw [hres]
    exact pyLookup_foldl_const_of_mem (rewrites k) v [] r hr

/-- Witness for C8 amended: an unmatched key survives; the matched key
label_size is found under its rewritten form. -/
theorem claim8_amended_witness :
    rename_attributes [("opacity", (1 : ℕ))] = [("opacity", 1)] ∧
    pyLookup (rename_attributes [("label_size", (2 : ℕ))]) "labeedge_size" =
      some 2 :=
  ⟨(claim8_amended "opacity" 1).1 (by decide),
   (claim8_amended "label_size" 2).2 "edge_" ["edge_", "link_", "l_", "e_"]
     "labeedge_size" (by decide) (by decide)⟩

/-! ## The margins key (drawing.py lines 185, 191-202, 240-243) -/

/-- The attribute dispatch of draw (drawing.py lines 211-229) sends each
renamed key into the node, edge or general bucket by substring tests; keys
containing neither node nor edge markers land in the general bucket.  Only
key presence matters for the margins lookup, so values are carried through
unchanged here (the value formatting applied to fixed, positions and weight
keys does not move or remove keys). -/
def general_bucket {α : Type} (kwds : List (String × α)) : List (String × α) :=
  kwds.filter
    (fun kv => !(pyIn ("node_".data) kv.1.data) && !(pyIn ("edge_".data) kv.1.data))

/-- Modelled from the spec: canvas.py is imported by drawing.py but absent
from the sources.  Spec section 4.3 gives the Canvas margins default:
a margins value of None selects the automatic margin of half the maximum
node size. -/
def canvas_margins (margins : Option ℚ) (maxNodeSize : ℚ) : ℚ :=
  match margins with
  | none => maxNodeSize / 2
  | some m => m

/-- A rewrite by a canonical group name that does not occur in the string
margins cannot produce the key margins. -/
theorem group_rewrite_ne_margins (attr t k : String)
    (hattr : pyIn attr.data ("margins".data) = false)
    (ht : t.data ≠ []) (hmatch : pyMatch k t = true) :
    pyReplace k t attr ≠ "margins" := by
  intro heq
  have hin : pyIn t.data k.data = true := by
    have h := hmatch
    simp only [pyMatch, Bool.and_eq_true] at h
    exact h.1
  have hdata : repAll t.data attr.data k.data = "margins".data :=
    congrArg String.data heq
  have hc := repAllAux_contains t.data attr.data ht k.data.length k.data
    le_rfl hin
  unfold repAll at hdata
  rw [hdata] at hc
  rw [hc] at hattr
  exact absurd hattr (by decide)

/-- Only the bare alias key margin is rewritten to the key margins. -/
theorem margins_not_mem_rewrites (k : String) (hk : k ≠ "margin") :
    "margins" ∉ rewrites k := by
  intro hmem
  rcases List.mem_filterMap.1 hmem with ⟨g, hg, hgr⟩
  simp only [groupRewrite] at hgr
  obtain ⟨t, hfind, hrep⟩ := Option.map_eq_some'.1 hgr
  have ht_mem : t ∈ g.2 := List.mem_of_find?_eq_some hfind
  have ht_match : pyMatch k t = true := List.find?_some hfind
  simp only [namesTable, List.mem_cons, List.mem_singleton,
    List.not_mem_nil, or_false] at hg
  rcases hg with hg | hg | hg | hg | hg <;> subst hg
  · simp only [List.mem_cons, List.mem_singleton, List.not_mem_nil,
      or_false] at ht_mem
    have ht : t.data ≠ [] := by
      rcases ht_mem with h | h | h <;> subst h <;> decide
    exact group_rewrite_ne_margins "node_" t k (by decide) ht ht_match hrep
  · simp only [List.mem_cons, List.mem_singleton, List.not_mem_nil,
      or_false] at ht_mem
    have ht : t.data ≠ [] := by
      rcases ht_mem with h | h | h | h <;> subst h <;> decide
    exact group_rewrite_ne_margins "edge_" t k (by decide) ht ht_match hrep
  · simp only [List.mem_singleton, List.not_mem_nil, or_false] at ht_mem
    subst ht_mem
    have hin : pyIn ("margin".data) k.data = true := by
      have h := ht_match
      simp only [pyMatch, Bool.and_eq_true] at h
      exact h.1
    have hdata : repAll ("margin".data) ("margins".data) k.data =
        "margins".data := congrArg String.data hrep
    have hkd := repAll_margin_inversion k.data hin hdata
    apply hk
    cases k with
    | mk kd =>
        have hkd' : kd = "margin".data := hkd
        rw [hkd']
  · simp only [List.mem_cons, List.mem_singleton, List.not_mem_nil,
      or_false] at ht_mem
    have ht : t.data ≠ [] := by
      rcases ht_mem with h | h <;> subst h <;> decide
    exact group_rewrite_ne_margins "canvas" t k (by decide) ht ht_match hrep
  · simp only [List.mem_cons, List.mem_singleton, List.not_mem_nil,
      or_false] at ht_mem
    have ht : t.data ≠ [] := by
      rcases ht_mem with h | h <;> subst h <;> decide
    exact group_rewrite_ne_margins "units" t k (by decide) ht ht_match hrep

/-- C10 counterexample: a style dictionary containing the canonical key
margins together with its alias margin yields a renamed dictionary in which
margins is present (the alias entry is rewritten back onto the canonical
name), contradicting the claim that margins is always absent. -/
theorem claim10_counterexample :
    pyLookup (rename_attributes [("margin", (1 : ℕ)), ("margins", 2)])
      "margins" = some 1 := by decide

/-- C10 amended: for every style-keyword dictionary containing the canonical
key margins and not containing the alias key margin, the renamed dictionary
lacks margins (the entry migrates to the unrecognized key marginss, as the
single-entry computation shows), so the general-bucket lookup of margins
misses and the spec-modelled Canvas default selects the auto margin. -/
theorem claim10_amended (kwds : List (String × ℚ)) (v : ℚ)
    (hv : ("margins", v) ∈ kwds)
    (hnoalias : ∀ kv ∈ kwds, kv.1 ≠ "margin") (s : ℚ) :
    pyLookup (rename_attributes kwds) "margins" = none ∧
    pyLookup (general_bucket (rename_attributes kwds)) "margins" = none ∧
    canvas_margins
      (pyLookup (general_bucket (rename_attributes kwds)) "margins") s = s / 2 ∧
    (∀ w : ℚ, rename_attributes [("margins", w)] = [("marginss", w)]) := by
  have h1 : pyLookup (rename_attributes kwds) "margins" = none := by
    simp only [rename_attributes]
    apply pyLookup_dmerge_of_none
    · rw [pyLookup_rename_fold kwds [] "margins"
        (fun kv hkv => margins_not_mem_rewrites kv.1 (hnoalias kv hkv))]
      rfl
    · intro kv hkv hkv1
      have hfil := List.mem_filter.1 hkv
      rw [hkv1] at hfil
      have : rewrites "margins" = ["marginss"] := by decide
      rw [this] at hfil
      exact absurd hfil.2 (by decide)
  have h2 : pyLookup (general_bucket (rename_attributes kwds)) "margins" =
      none := by
    apply (pyLookup_eq_none_iff _ _).2
    intro hmem
    rcases List.mem_map.1 hmem with ⟨kv, hkv, hfst⟩
    have hkv' : kv ∈ rename_attributes kwds := List.mem_of_mem_filter hkv
    have : "margins" ∈ dkeys (rename_attributes kwds) :=
      hfst ▸ List.mem_map_of_mem Prod.fst hkv'
    exact (pyLookup_eq_none_iff _ _).1 h1 this
  refine ⟨h1, h2, by rw [h2]; rfl, ?_⟩
  intro w
  have hrw : rewrites "margins" = ["marginss"] := by decide
  simp [rename_attributes, hrw, dmerge, dinsert]

/-- Witness for C10 amended at a one-entry style dictionary. -/
theorem claim10_amended_witness :
    pyLookup (rename_attributes [("margins", (3 : ℚ))]) "margins" = none ∧
    pyLookup (general_bucket (rename_attributes [("margins", (3 : ℚ))]))
      "margins" = none ∧
    canvas_margins
      (pyLookup (general_bucket (rename_attributes [("margins", (3 : ℚ))]))
        "margins") 4 = 4 / 2 ∧
    (∀ w : ℚ, rename_attributes [("margins", w)] = [("marginss", w)]) :=
  claim10_amended [("margins", 3)] 3 (List.mem_singleton.2 rfl)
    (by
      intro kv hkv
      rw [List.mem_singleton] at hkv
      subst hkv
      decide) 4

/-! ## Directedness default (drawing.py, draw, lines 231-234) -/

/-- drawing.py lines 231-234: if the network is directed and
edge_attributes.get("edge_directed", None) is None (the stored values are
always maps produced by format_edge_value, never Python None, so the get
defaults to None exactly when the key is absent), draw synthesizes
edge_directed as format_edge_value(True); otherwise the attribute dict is
left alone. -/
def draw_directed_default {ε : Type} [DecidableEq ε] (directed : Bool)
    (edges : List ε)
    (edge_attributes : List (String × List (ε × Option PyScalar))) :
    Except CnetErr (List (String × List (ε × Option PyScalar))) :=
  if directed && (pyLookup edge_attributes "edge_directed").isNone then
    match format_edge_value edges (.scalar (.bool true)) with
    | .ok m => .ok (dinsert edge_attributes "edge_directed" m)
    | .error e => .error e
  else
    .ok edge_attributes

/-- C9: for a directed network with no explicit edge_directed style value,
the pipeline synthesizes an edge_directed attribute map assigning true to
every edge; for undirected networks, or when edge_directed is present, the
attribute dict is returned unchanged (no map is synthesized). -/
theorem claim9_directed_default {ε : Type} [DecidableEq ε] (directed : Bool)
    (edges : List ε)
    (attrs : List (String × List (ε × Option PyScalar))) :
    (directed = true → pyLookup attrs "edge_directed" = none →
      ∃ m, draw_directed_default directed edges attrs =
          .ok (dinsert attrs "edge_directed" m) ∧
        (∀ q, q ∈ dkeys m ↔ q ∈ edges) ∧
        ∀ e ∈ edges, pyLookup m e = some (some (.bool true))) ∧
    (directed = false →
      draw_directed_default directed edges attrs = .ok attrs) ∧
    (∀ m₀, pyLookup attrs "edge_directed" = some m₀ →
      draw_directed_default directed edges attrs = .ok attrs) := by
  refine ⟨?_, ?_, ?_⟩
  · intro hd hnone
    refine ⟨edges.foldl (fun d n => dinsert d n (some (.bool true))) [], ?_,
      fun q => scalar_fold_keys edges (.bool true) q, fun e he => ?_⟩
    · unfold draw_directed_default
      rw [if_pos (by rw [hd, hnone]; rfl)]
      rfl
    · rw [scalar_fold_lookup]
      simp [he]
  · intro hd
    unfold draw_directed_default
    rw [if_neg (by rw [hd]; simp)]
  · intro m₀ hm
    unfold draw_directed_default
    rw [if_neg (by rw [hm]; simp)]

/-- Witness for C9: a two-edge directed network with empty edge attributes
receives the synthesized broadcast; an undirected one does not. -/
theorem claim9_directed_default_witness :
    (∃ m, draw_directed_default true [(0 : ℕ), 1] [] =
        .ok (dinsert [] "edge_directed" m) ∧
      (∀ q, q ∈ dkeys m ↔ q ∈ [0, 1]) ∧
      ∀ e ∈ [0, 1], pyLookup m e = some (some (.bool true))) ∧
    draw_directed_default false [(0 : ℕ), 1] [] = .ok [] :=
  ⟨(claim9_directed_default true [0, 1] []).1 rfl rfl,
   (claim9_directed_default false [0, 1] []).2.1 rfl⟩

/-! ## Layout strategy selection (layout.py, Layout.generate_layout,
lines 55-67) -/

/-- layout.py line 57: the random alias list (None included). -/
def names_rand : List (Option String) :=
  [some "Random", some "random", some "rand", none]

/-- layout.py lines 58-59: the Fruchterman-Reingold alias list. -/
def names_fr : List (Option String) :=
  [some "Fruchterman-Reingold", some "fruchterman_reingold", some "fr",
   some "spring_layout", some "spring layout", some "FR"]

/-- The outcome of Layout.generate_layout on a fresh Layout object: which
strategy runs, or the Python error the call ends with.  When the name is in
neither alias list no branch assigns self.layout, and the final
return self.layout reads a never-assigned attribute, raising AttributeError;
the library error class CnetError (the error the spec names LayoutError) is
never raised on this path. -/
inductive GenerateLayoutResult where
  | randomLayout
  | fruchtermanReingold
  | attributeError
  | cnetError
deriving DecidableEq, Repr

/-- layout.py lines 55-67: the generate_layout dispatch. -/
def generate_layout (layout_type : Option String) : GenerateLayoutResult :=
  if layout_type ∈ names_rand then .randomLayout
  else if layout_type ∈ names_fr then .fruchtermanReingold
  else .attributeError

/-- C6 counterexample: an unrecognized layout name makes generate_layout
fail with AttributeError, not with the library error type the spec calls
LayoutError. -/
theorem claim6_counterexample :
    generate_layout (some "circle") = .attributeError ∧
    GenerateLayoutResult.attributeError ≠ .cnetError :=
  ⟨by decide, by decide⟩

/-- C6 amended: every layout name outside both alias lists makes
generate_layout fail, but with an AttributeError from returning the
never-assigned layout attribute rather than with a LayoutError; None or an
unspecified name selects the random strategy. -/
theorem claim6_amended (s : Option String) (h1 : s ∉ names_rand)
    (h2 : s ∉ names_fr) :
    generate_layout s = .attributeError ∧
    generate_layout none = .randomLayout := by
  constructor
  · unfold generate_layout
    rw [if_neg h1, if_neg h2]
  · decide

/-- Witness for C6 amended at the concrete name circle. -/
theorem claim6_amended_witness :
    generate_layout (some "circle") = .attributeError ∧
    generate_layout none = .randomLayout :=
  claim6_amended (some "circle") (by decide) (by decide)

/-! ## Sparse versus dense path selection (layout.py,
Layout.fruchterman_reingold lines 151-157 and
Layout._sparse_fruchterman_reingold lines 246-251) -/

/-- Which algorithm actually runs: the try block raises ValueError for fewer
than 500 nodes, and the sparse worker raises ImportError when scipy is
unavailable; the bare except around the try block then runs the dense
algorithm in every failure case.  The constructor unavailableFeatureError
models the failure the spec demands for a sparse request without sparse
support; the code never produces it. -/
inductive FrPathResult where
  | denseAlgorithm
  | sparseAlgorithm
  | unavailableFeatureError
deriving DecidableEq, Repr

/-- layout.py lines 151-157: path selection with the bare except. -/
def fr_path_selection (nNodes : ℕ) (scipyAvailable : Bool) : FrPathResult :=
  if nNodes < 500 then .denseAlgorithm
  else if scipyAvailable then .sparseAlgorithm
  else .denseAlgorithm

/-- C5: at 500 nodes without scipy the code silently runs the dense
algorithm instead of failing; the same input with scipy available runs the
sparse algorithm, so the selection silently changes the algorithm with the
environment. -/
theorem claim5_silent_fallback :
    fr_path_selection 500 false = .denseAlgorithm ∧
    fr_path_selection 500 false ≠ .unavailableFeatureError ∧
    fr_path_selection 500 true = .sparseAlgorithm :=
  ⟨by decide, by decide, by decide⟩

/-! ## Curvature-angle derivation (drawing.py, TikzNetworkDrawer.curve,
lines 430-452)

The numpy float computation is embedded over the real numbers.  np.round
rounds half to even while Mathlib round rounds half up; the two agree except
at exact midpoints, which none of the statements below touch. -/

/-- np.round(x, 3). -/
noncomputable def round3 (x : ℝ) : ℝ := (round (x * 1000) : ℤ) / 1000

/-- drawing.py lines 440-449 for one nonzero curvature value: the reference
triangle v1 = (0,0), v2 = (1,1) with the control point v3 offset by the
curvature factor, and the angle (in degrees, np.rad2deg) between vec1 =
v2 - v1 and vec2 = v3 - v1.  np.linalg-style norms appear as square roots of
component-square sums. -/
noncomputable def curve_angle (curved : ℝ) : ℝ :=
  let v1 : ℝ × ℝ := (0, 0)
  let v2 : ℝ × ℝ := (1, 1)
  let v3 : ℝ × ℝ :=
    ((2 * v1.1 + v2.1) / 3 - curved * 0.5 * (v2.2 - v1.2),
     (2 * v1.2 + v2.2) / 3 + curved * 0.5 * (v2.1 - v1.1))
  let vec1 : ℝ × ℝ := (v2.1 - v1.1, v2.2 - v1.2)
  let vec2 : ℝ × ℝ := (v3.1 - v1.1, v3.2 - v1.2)
  Real.arccos
    ((vec1.1 * vec2.1 + vec1.2 * vec2.2) /
      Real.sqrt (vec1.1 * vec1.1 + vec1.2 * vec1.2) /
      Real.sqrt (vec2.1 * vec2.1 + vec2.2 * vec2.2)) * 180 / Real.pi

/-- drawing.py lines 434-451: a curvature of exactly 0 yields 0; otherwise
the angle is signed by np.sign(curved), negated, and rounded to 3 decimals. -/
noncomputable def curve_value (curved : ℝ) : ℝ :=
  if curved = 0 then 0
  else round3 (Real.sign curved * curve_angle curved * (-1))

/-- drawing.py lines 432-452: the per-edge map of bend angles. -/
noncomputable def curve {ε : Type} (edge_curved : List (ε × ℝ)) :
    List (ε × ℝ) :=
  edge_curved.map (fun kv => (kv.1, curve_value kv.2))

theorem round3_mono {x y : ℝ} (h : x ≤ y) : round3 x ≤ round3 y := by
  unfold round3
  have hr : round (x * 1000) ≤ round (y * 1000) := by
    rw [round_eq, round_eq]
    exact Int.floor_mono (by linarith)
  have hc : ((round (x * 1000) : ℤ) : ℝ) ≤ ((round (y * 1000) : ℤ) : ℝ) :=
    Int.cast_le.2 hr
  linarith

theorem round3_zero : round3 0 = 0 := by
  unfold round3
  norm_num

theorem curve_angle_nonneg (c : ℝ) : 0 ≤ curve_angle c := by
  unfold curve_angle
  exact div_nonneg (mul_nonneg (Real.arccos_nonneg _) (by norm_num))
    Real.pi_pos.le

/-- C4 amended: curvature 0 yields bend angle exactly 0, and for nonzero
curvature the sign of the returned bend angle is opposite to the sign of the
curvature factor: nonpositive output for positive curvature, nonnegative
output for negative curvature. -/
theorem claim4_amended (c : ℝ) :
    (c = 0 → curve_value c = 0) ∧
    (0 < c → curve_value c ≤ 0) ∧
    (c < 0 → 0 ≤ curve_value c) := by
  refine ⟨?_, ?_, ?_⟩
  · intro h
    unfold curve_value
    rw [if_pos h]
  · intro h
    unfold curve_value
    rw [if_neg (ne_of_gt h), Real.sign_of_pos h, one_mul]
    have harg : curve_angle c * (-1) ≤ 0 := by
      have := curve_angle_nonneg c
      linarith
    calc round3 (curve_angle c * (-1)) ≤ round3 0 := round3_mono harg
      _ = 0 := round3_zero
  · intro h
    unfold curve_value
    rw [if_neg (ne_of_lt h), Real.sign_of_neg h]
    have harg : (0 : ℝ) ≤ -1 * curve_angle c * (-1) := by
      have := curve_angle_nonneg c
      linarith
    calc (0 : ℝ) = round3 0 := round3_zero.symm
      _ ≤ round3 (-1 * curve_angle c * (-1)) := round3_mono harg

/-- Witness for C4 amended at curvature 1. -/
theorem claim4_amended_witness : (0 : ℝ) < 1 ∧ curve_value 1 ≤ 0 :=
  ⟨by norm_num, (claim4_amended 1).2.1 (by norm_num)⟩

/-- The angle at curvature 1 is at least 30 degrees: the control point for
curvature 1 is (-1/6, 5/6), and the cosine of the angle against (1, 1) is
2/3 divided by the two vector norms, which is at most cos(30 degrees). -/
theorem curve_angle_one_ge : (30 : ℝ) ≤ curve_angle 1 := by
  have heq : curve_angle 1 =
      Real.arccos (2 / 3 / Real.sqrt 2 / Real.sqrt (13 / 18)) * 180 /
        Real.pi := by
    unfold curve_angle
    norm_num
  have hx : (2 / 3 : ℝ) / Real.sqrt 2 / Real.sqrt (13 / 18) ≤
      Real.sqrt 3 / 2 := by
    have h2 : (7 / 5 : ℝ) ≤ Real.sqrt 2 := by
      rw [show (7 / 5 : ℝ) = Real.sqrt ((7 / 5) ^ 2) from
        (Real.sqrt_sq (by norm_num)).symm]
      exact Real.sqrt_le_sqrt (by norm_num)
    have h1318 : (4 / 5 : ℝ) ≤ Real.sqrt (13 / 18) := by
      rw [show (4 / 5 : ℝ) = Real.sqrt ((4 / 5) ^ 2) from
        (Real.sqrt_sq (by norm_num)).symm]
      exact Real.sqrt_le_sqrt (by norm_num)
    have h3 : (6 / 5 : ℝ) ≤ Real.sqrt 3 := by
      rw [show (6 / 5 : ℝ) = Real.sqrt ((6 / 5) ^ 2) from
        (Real.sqrt_sq (by norm_num)).symm]
      exact Real.sqrt_le_sqrt (by norm_num)
    have hstep : (2 / 3 : ℝ) / Real.sqrt 2 / Real.sqrt (13 / 18) ≤
        (2 / 3) / (7 / 5) / (4 / 5) := by
      gcongr
    calc (2 / 3 : ℝ) / Real.sqrt 2 / Real.sqrt (13 / 18)
        ≤ (2 / 3) / (7 / 5) / (4 / 5) := hstep
      _ = 25 / 42 := by norm_num
      _ ≤ (6 / 5) / 2 := by norm_num
      _ ≤ Real.sqrt 3 / 2 := by linarith
  have harccos : Real.pi / 6 ≤
      Real.arccos (2 / 3 / Real.sqrt 2 / Real.sqrt (13 / 18)) := by
    calc Real.pi / 6 = Real.arccos (Real.cos (Real.pi / 6)) :=
        (Real.arccos_cos (by positivity) (by linarith [Real.pi_pos])).symm
      _ = Real.arccos (Real.sqrt 3 / 2) := by rw [Real.cos_pi_div_six]
      _ ≤ Real.arccos (2 / 3 / Real.sqrt 2 / Real.sqrt (13 / 18)) := by
          rw [Real.arccos_eq_pi_div_two_sub_arcsin,
            Real.arccos_eq_pi_div_two_sub_arcsin]
          have := Real.monotone_arcsin hx
          linarith
  have hpi := Real.pi_pos
  rw [heq]
  have hmul : Real.pi / 6 * 180 ≤
      Real.arccos (2 / 3 / Real.sqrt 2 / Real.sqrt (13 / 18)) * 180 :=
    mul_le_mul_of_nonneg_right harccos (by norm_num)
  have hdiv : Real.pi / 6 * 180 / Real.pi ≤
      Real.arccos (2 / 3 / Real.sqrt 2 / Real.sqrt (13 / 18)) * 180 /
        Real.pi := by
    exact (div_le_div_right hpi).2 hmul
  have hval : Real.pi / 6 * 180 / Real.pi = 30 := by
    field_simp
    ring
  linarith

/-- C4 counterexample: at curvature 1 the returned bend angle is strictly
negative (about -56.3 degrees), while the claim demands a positive sign. -/
theorem claim4_counterexample : (0 : ℝ) < 1 ∧ curve_value 1 < 0 := by
  refine ⟨by norm_num, ?_⟩
  unfold curve_value
  rw [if_neg one_ne_zero, Real.sign_one, one_mul]
  have h30 := curve_angle_one_ge
  have harg : curve_angle 1 * (-1) ≤ -30 := by linarith
  have hmono : round3 (curve_angle 1 * (-1)) ≤ round3 (-30) :=
    round3_mono harg
  have hval : round3 (-30 : ℝ) = -30 := by
    unfold round3
    rw [show ((-30 : ℝ) * 1000) = ((-30000 : ℤ) : ℝ) by norm_num,
      round_intCast]
    norm_num
  linarith

/-! ## Dense Fruchterman-Reingold simulation (layout.py,
Layout._fruchterman_reingold, lines 163-230)

The numpy arrays are embedded as functions on Fin indices over the reals.
The random initial positions drawn when no layout is given, and likewise any
user-supplied initial positions, enter through the parameter L0; the
adjacency matrix A is the dense matrix the code obtains from
self.adjacency_matrix.todense(). -/

/-- Python max over a nonempty list (the empty case cannot arise for a
nonempty node set; Python raises there). -/
def listMax : List ℝ → ℝ
  | [] => 0
  | x :: xs => xs.foldl max x

/-- Python min over a nonempty list. -/
def listMin : List ℝ → ℝ
  | [] => 0
  | x :: xs => xs.foldl min x

/-- Column j of the layout matrix, layout.T[j].  (Python raises IndexError
when j is not below the dimension; the layout code reads columns 0 and 1
and documents dimension 2.) -/
def layoutCol {n d : ℕ} (L : Fin n → Fin d → ℝ) (j : ℕ) : List ℝ :=
  (List.finRange n).map (fun i => if h : j < d then L i ⟨j, h⟩ else 0)

/-- layout.py lines 196-197: the initial temperature, a tenth of the larger
coordinate span of the two columns. -/
noncomputable def initialTemp {n d : ℕ} (L : Fin n → Fin d → ℝ) : ℝ :=
  max (listMax (layoutCol L 0) - listMin (layoutCol L 0))
    (listMax (layoutCol L 1) - listMin (layoutCol L 1)) * 0.1

/-- layout.py line 208: the matrix of coordinate differences. -/
def delta {n d : ℕ} (L : Fin n → Fin d → ℝ) (i j : Fin n) (c : Fin d) : ℝ :=
  L i c - L j c

/-- layout.py lines 210-212: pairwise Euclidean distances, clipped below at
0.01. -/
noncomputable def distance {n d : ℕ} (L : Fin n → Fin d → ℝ)
    (i j : Fin n) : ℝ :=
  max 0.01 (Real.sqrt (∑ c, delta L i j c ^ 2))

/-- layout.py lines 214-216: the displacement force, the einsum of delta
with the repulsive-minus-attractive factor. -/
noncomputable def displacement {n d : ℕ} (A : Fin n → Fin n → ℝ) (k : ℝ)
    (L : Fin n → Fin d → ℝ) (i : Fin n) (c : Fin d) : ℝ :=
  ∑ j, delta L i j c *
    (k * k / distance L i j ^ 2 - A i j * distance L i j / k)

/-- layout.py lines 218-219: the per-node displacement magnitude, with
lengths below 0.01 replaced by 0.1. -/
noncomputable def dispLength {n d : ℕ} (A : Fin n → Fin n → ℝ) (k : ℝ)
    (L : Fin n → Fin d → ℝ) (i : Fin n) : ℝ :=
  if Real.sqrt (∑ c, displacement A k L i c ^ 2) < 0.01 then 0.1
  else Real.sqrt (∑ c, displacement A k L i c ^ 2)

/-- layout.py line 220: the applied step, displacement scaled to
temperature over length. -/
noncomputable def delta_layout {n d : ℕ} (A : Fin n → Fin n → ℝ) (k t : ℝ)
    (L : Fin n → Fin d → ℝ) (i : Fin n) (c : Fin d) : ℝ :=
  displacement A k L i c * (t / dispLength A k L i)

/-- layout.py lines 221-223: when a fixed set is given, the rows of the
step at the fixed indices are zeroed before the update. -/
noncomputable def delta_layout_fixed {n d : ℕ}
    (fixed : Option (List (Fin n))) (A : Fin n → Fin n → ℝ) (k t : ℝ)
    (L : Fin n → Fin d → ℝ) (i : Fin n) (c : Fin d) : ℝ :=
  match fixed with
  | none => delta_layout A k t L i c
  | some fx => if i ∈ fx then 0 else delta_layout A k t L i c

/-- layout.py line 227: the convergence error, the Frobenius norm of the
applied step over the node count. -/
noncomputable def frError {n d : ℕ} (dl : Fin n → Fin d → ℝ) : ℝ :=
  Real.sqrt (∑ i, ∑ c, dl i c ^ 2) / n

/-- layout.py lines 206-229: the iteration loop.  Each pass applies the
(possibly fixed-zeroed) step and cools the temperature; the loop breaks
after the update when the error is below the threshold. -/
noncomputable def fr_iterate {n d : ℕ} (A : Fin n → Fin n → ℝ) (k : ℝ)
    (fixed : Option (List (Fin n))) (threshold dt : ℝ) :
    ℕ → ((Fin n → Fin d → ℝ) × ℝ) → ((Fin n → Fin d → ℝ) × ℝ)
  | 0, s => s
  | m + 1, s =>
      if frError (fun i c => delta_layout_fixed fixed A k s.2 s.1 i c) <
          threshold then
        (fun i c => s.1 i c + delta_layout_fixed fixed A k s.2 s.1 i c,
          s.2 - dt)
      else
        fr_iterate A k fixed threshold dt m
          (fun i c => s.1 i c + delta_layout_fixed fixed A k s.2 s.1 i c,
            s.2 - dt)

/-- layout.py lines 163-230: the dense Fruchterman-Reingold worker.  The
optimal distance defaults to sqrt(1/n) when unset (lines 190-191), the
temperature and the cooling step come from the initial layout (lines
196-200), and the loop runs for the configured iteration budget. -/
noncomputable def dense_fruchterman_reingold {n d : ℕ}
    (A : Fin n → Fin n → ℝ) (kOpt : Option ℝ)
    (fixed : Option (List (Fin n))) (iterations : ℕ) (threshold : ℝ)
    (L0 : Fin n → Fin d → ℝ) : Fin n → Fin d → ℝ :=
  (fr_iterate A (kOpt.getD (Real.sqrt (1 / n))) fixed threshold
    (initialTemp L0 / (iterations + 1)) iterations (L0, initialTemp L0)).1

/-- The loop never moves a coordinate of a node in the fixed list. -/
theorem fr_iterate_fixed {n d : ℕ} (A : Fin n → Fin n → ℝ) (k : ℝ)
    (fx : List (Fin n)) (threshold dt : ℝ) (i : Fin n) (hi : i ∈ fx)
    (c : Fin d) :
    ∀ m s, (fr_iterate A k (some fx) threshold dt m s).1 i c = s.1 i c := by
  intro m
  induction m with
  | zero => intro s; rfl
  | succ mm ih =>
      intro s
      have hdl : delta_layout_fixed (some fx) A k s.2 s.1 i c = 0 := by
        simp [delta_layout_fixed, hi]
      simp only [fr_iterate]
      by_cases herr : frError
          (fun i c => delta_layout_fixed (some fx) A k s.2 s.1 i c) <
          threshold
      · rw [if_pos herr]
        simp [hdl]
      · rw [if_neg herr, ih]
        simp [hdl]

/-- C7: in the dense force-directed simulation with a fixed-node set, the
per-iteration displacement applied to a fixed node is zero at every state,
and the coordinate of every fixed node after the whole simulation equals its
initial coordinate. -/
theorem claim7_fixed_invariant {n d : ℕ} (A : Fin n → Fin n → ℝ)
    (kOpt : Option ℝ) (fx : List (Fin n)) (iterations : ℕ) (threshold : ℝ)
    (L0 : Fin n → Fin d → ℝ) (i : Fin n) (hi : i ∈ fx) (c : Fin d) :
    (∀ (k t : ℝ) (L : Fin n → Fin d → ℝ),
      delta_layout_fixed (some fx) A k t L i c = 0) ∧
    dense_fruchterman_reingold A kOpt (some fx) iterations threshold L0 i c =
      L0 i c := by
  constructor
  · intro k t L
    simp [delta_layout_fixed, hi]
  · unfold dense_fruchterman_reingold
    rw [fr_iterate_fixed A _ fx threshold _ i hi c iterations (L0, initialTemp L0)]

/-- A concrete two-node starting layout: node 0 at the origin, node 1 at
(3, 4). -/
noncomputable def mvL0 : Fin 2 → Fin 2 → ℝ :=
  fun i c => if i = 0 then 0 else if c = 0 then 3 else 4

/-- Witness for C7: in a concrete two-node simulation with node 0 fixed,
node 0 keeps its coordinate while the non-fixed node 1 moves (from
x = 3 to x = 3.24 in the single iteration). -/
theorem claim7_fixed_invariant_witness :
    (0 : Fin 2) ∈ [(0 : Fin 2)] ∧
    ((∀ (k t : ℝ) (L : Fin 2 → Fin 2 → ℝ),
      delta_layout_fixed (some [(0 : Fin 2)]) (fun _ _ => 0) k t L 0 0 = 0) ∧
    dense_fruchterman_reingold (fun _ _ => 0) (some 1) (some [(0 : Fin 2)]) 1 0
        mvL0 0 0 = mvL0 0 0) ∧
    dense_fruchterman_reingold (fun _ _ => 0) (some 1) (some [(0 : Fin 2)]) 1 0
      mvL0 1 0 ≠ mvL0 1 0 := by
  refine ⟨by decide,
    claim7_fixed_invariant (fun _ _ => 0) (some 1) [(0 : Fin 2)] 1 0
      mvL0 0 (by decide) 0, ?_⟩
  have hL10 : mvL0 1 0 = 3 := by simp [mvL0]
  have hL11 : mvL0 1 1 = 4 := by simp [mvL0]
  have hL00 : mvL0 0 0 = 0 := by simp [mvL0]
  have hL01 : mvL0 0 1 = 0 := by simp [mvL0]
  have hdist10 : distance mvL0 1 0 = 5 := by
    unfold distance
    rw [show (∑ c, delta mvL0 1 0 c ^ 2) = 25 by
      rw [Fin.sum_univ_two]
      unfold delta
      rw [hL10, hL11, hL00, hL01]
      norm_num]
    rw [show Real.sqrt 25 = 5 by
      rw [show (25 : ℝ) = 5 ^ 2 by norm_num, Real.sqrt_sq (by norm_num)]]
    norm_num
  have hdist11 : distance mvL0 1 1 = 0.01 := by
    unfold distance
    rw [show (∑ c, delta mvL0 1 1 c ^ 2) = 0 by
      rw [Fin.sum_univ_two]
      unfold delta
      norm_num]
    rw [Real.sqrt_zero]
    norm_num
  have hdisp0 : displacement (fun _ _ => (0 : ℝ)) 1 mvL0 1 0 = 3 / 25 := by
    unfold displacement
    rw [Fin.sum_univ_two, hdist10, hdist11]
    unfold delta
    rw [hL10, hL00]
    norm_num
  have hdisp1 : displacement (fun _ _ => (0 : ℝ)) 1 mvL0 1 1 = 4 / 25 := by
    unfold displacement
    rw [Fin.sum_univ_two, hdist10, hdist11]
    unfold delta
    rw [hL11, hL01]
    norm_num
  have hlen : dispLength (fun _ _ => (0 : ℝ)) 1 mvL0 1 = 1 / 5 := by
    unfold dispLength
    rw [show (∑ c, displacement (fun _ _ => (0 : ℝ)) 1 mvL0 1 c ^ 2) =
        1 / 25 by
      rw [Fin.sum_univ_two, hdisp0, hdisp1]
      norm_num]
    rw [show Real.sqrt (1 / 25) = 1 / 5 by
      rw [show (1 / 25 : ℝ) = (1 / 5) ^ 2 by norm_num,
        Real.sqrt_sq (by norm_num)]]
    norm_num
  have htemp : initialTemp mvL0 = 0.4 := by
    unfold initialTemp layoutCol listMax listMin
    rw [show (List.finRange 2) = [0, 1] by decide]
    simp only [List.map_cons, List.map_nil]
    norm_num [mvL0]
  have hdl : delta_layout_fixed (some [(0 : Fin 2)]) (fun _ _ => (0 : ℝ)) 1
      (initialTemp mvL0) mvL0 1 0 = 6 / 25 := by
    show (if (1 : Fin 2) ∈ [(0 : Fin 2)] then (0 : ℝ)
      else delta_layout (fun _ _ => (0 : ℝ)) 1 (initialTemp mvL0) mvL0 1 0) =
        6 / 25
    rw [if_neg (by decide)]
    unfold delta_layout
    rw [hdisp0, hlen, htemp]
    norm_num
  unfold dense_fruchterman_reingold
  rw [show ((some (1 : ℝ)).getD (Real.sqrt (1 / (2 : ℕ)))) = 1 from rfl]
  simp only [fr_iterate]
  rw [if_neg (by
    apply not_lt.2
    exact div_nonneg (Real.sqrt_nonneg _) (by norm_num))]
  simp only [fr_iterate]
  rw [hdl, hL10]
  norm_num

end Network2Tikz
